import Mathlib

/-!
Verification of the single-pass INI parser (`src/main.cpp`).

The buffer is modelled as a `List Char`; pointers into the buffer become
`Nat` offsets.  A C slice `{char *data; int length;}` pointing into the
buffer becomes a `(start, len)` pair of offsets.  The mutable parser
state (the C parser struct: cursor, line, current section, accumulated
properties) is threaded explicitly.  Every C loop advances the cursor by
exactly one byte per iteration, so each loop is written as structural
recursion on a fuel argument; the wrappers pass `buf.length` (resp.
`buf.length + 1` for the outer loop), which is always enough fuel, so
the fuel value never influences a reachable result.  The C functions
return `0` on success and `-1` after printing a diagnostic; here they
return `Except PError` where `PError` records which diagnostic was
printed and the line number it printed.  The C `assert(key_end)` in
`parse_kv` can fail at runtime (it aborts the process); that abort is
modelled as the distinguished outcome `ErrKind.assertKeyEndNull`.
-/

namespace IniParser

/-- A non-owning view into the parse buffer: C `slice` (`char *data;
int length;`), with the pointer replaced by a start offset. -/
structure Slice where
  start : Nat
  len : Nat
deriving DecidableEq, Repr

/-- One (section, key, value) record: C `struct ini_kv`.  The C field
`section` is a Lean keyword, so it is named `sec` here. -/
structure ini_kv where
  sec : Slice
  key : Slice
  value : Slice
deriving DecidableEq, Repr

/-- The mutable parser state, the C parser struct minus the buffer
itself (the buffer is immutable and passed separately).  `sec` is the C
field `section`. -/
structure IniState where
  cursor : Nat
  line : Nat
  sec : Slice
  properties : List ini_kv
deriving DecidableEq, Repr

/-- Which diagnostic a failing run prints.  The first four correspond to
the four `fprintf`+`return -1` sites; `assertKeyEndNull` models the
`assert(key_end)` abort in `parse_kv` (reachable when the key is empty,
since `key_end` is then still the null pointer). -/
inductive ErrKind where
  | unterminatedSection
  | missingEqualsEol
  | missingEqualsEof
  | missingValue
  | assertKeyEndNull
deriving DecidableEq, Repr

/-- A failure outcome: the kind of diagnostic and the value of
`ini->line` it reported. -/
structure PError where
  kind : ErrKind
  line : Nat
deriving DecidableEq, Repr

instance {ε α : Type} [DecidableEq ε] [DecidableEq α] : DecidableEq (Except ε α)
  | .error e, .error e' =>
    if h : e = e' then .isTrue (by rw [h]) else .isFalse (fun hh => h (Except.error.inj hh))
  | .error _, .ok _ => .isFalse (fun hh => Except.noConfusion hh)
  | .ok _, .error _ => .isFalse (fun hh => Except.noConfusion hh)
  | .ok a, .ok a' =>
    if h : a = a' then .isTrue (by rw [h]) else .isFalse (fun hh => h (Except.ok.inj hh))

/-- C `discard_whitespace`: advance the cursor over spaces and tabs,
stopping at the first other byte or at end of buffer. -/
def discard_whitespace (buf : List Char) : Nat → Nat → Nat
  | 0, cur => cur
  | fuel + 1, cur =>
    if cur < buf.length then
      if buf.getD cur ' ' = ' ' ∨ buf.getD cur ' ' = '\t' then
        discard_whitespace buf fuel (cur + 1)
      else cur
    else cur

/-- C `discard_comment`: advance the cursor until the next `\r` or `\n`
or end of buffer, without consuming the terminator. -/
def discard_comment (buf : List Char) : Nat → Nat → Nat
  | 0, cur => cur
  | fuel + 1, cur =>
    if cur < buf.length then
      if buf.getD cur ' ' = '\r' ∨ buf.getD cur ' ' = '\n' then cur
      else discard_comment buf fuel (cur + 1)
    else cur

/-- The scan loop of C `parse_section_header`: starting at `cur`, look
for `]`; on success return the cursor (left **on** the `]`) and the
captured section slice `[sb, cursor)`; at end of buffer fail with
`UnterminatedSection` at the line the header began. -/
def scanSection (buf : List Char) (line sb : Nat) :
    Nat → Nat → Except PError (Nat × Slice)
  | 0, _ => .error ⟨.unterminatedSection, line⟩
  | fuel + 1, cur =>
    if cur < buf.length then
      if buf.getD cur ' ' = ']' then .ok (cur, ⟨sb, cur - sb⟩)
      else scanSection buf line sb fuel (cur + 1)
    else .error ⟨.unterminatedSection, line⟩

/-- C `parse_section_header`: skip the `[` at `cur`, then scan for `]`.
The C code never touches `ini->line` here, so newlines inside the
header neither terminate it nor bump the line counter. -/
def parse_section_header (buf : List Char) (cur line : Nat) :
    Except PError (Nat × Slice) :=
  scanSection buf line (cur + 1) buf.length (cur + 1)

/-- The key loop of C `parse_kv`: `kend` is the `key_end` pointer as an
offset (`none` = still the null pointer, `some e` = one past the last
non-whitespace key byte seen).  `=` exits the loop (the `cursor++` at
the bottom still runs, so the returned cursor is one past the `=`);
space and tab are skipped; `\r`/`\n` is the "Expected '=', encountered
EOL" error; end of buffer is the "Expected '=' after key, encountered
EOF" error; any other byte extends the key. -/
def scanKey (buf : List Char) (line : Nat) :
    Nat → Nat → Option Nat → Except PError (Nat × Option Nat)
  | 0, _, _ => .error ⟨.missingEqualsEof, line⟩
  | fuel + 1, cur, kend =>
    if cur < buf.length then
      if buf.getD cur ' ' = '=' then .ok (cur + 1, kend)
      else if buf.getD cur ' ' = ' ' ∨ buf.getD cur ' ' = '\t' then
        scanKey buf line fuel (cur + 1) kend
      else if buf.getD cur ' ' = '\r' ∨ buf.getD cur ' ' = '\n' then
        .error ⟨.missingEqualsEol, line⟩
      else scanKey buf line fuel (cur + 1) (some (cur + 1))
    else .error ⟨.missingEqualsEof, line⟩

/-- The value loop of C `parse_kv`: `vend` is the `value_end` pointer.
`\r`/`\n` sets `value_done` but the `cursor++` at the bottom of the loop
still runs, so the returned cursor is one **past** the terminator; end
of buffer leaves the cursor at `buf.length`. -/
def scanValue (buf : List Char) :
    Nat → Nat → Option Nat → Nat × Option Nat
  | 0, cur, vend => (cur, vend)
  | fuel + 1, cur, vend =>
    if cur < buf.length then
      if buf.getD cur ' ' = '\r' ∨ buf.getD cur ' ' = '\n' then (cur + 1, vend)
      else if buf.getD cur ' ' = ' ' ∨ buf.getD cur ' ' = '\t' then
        scanValue buf fuel (cur + 1) vend
      else scanValue buf fuel (cur + 1) (some (cur + 1))
    else (cur, vend)

/-- C `parse_kv`: skip leading whitespace, scan the key, skip
whitespace after the `=`, scan the value.  `key_begin` is the cursor
after the first whitespace skip, `value_begin` the cursor after the
second.  A null `value_end` is the MissingValue error (checked first,
as in the source); after that the source runs `assert(key_end)`, which
aborts when `key_end` is still null — modelled as `assertKeyEndNull`.
On success the emitted record copies the caller's current section. -/
def parse_kv (buf : List Char) (cur line : Nat) (sec : Slice) :
    Except PError (Nat × ini_kv) :=
  match scanKey buf line buf.length (discard_whitespace buf buf.length cur) none with
  | .error e => .error e
  | .ok (c2, kend) =>
    match scanValue buf buf.length (discard_whitespace buf buf.length c2) none with
    | (_, none) => .error ⟨.missingValue, line⟩
    | (c4, some ve) =>
      match kend with
      | none => .error ⟨.assertKeyEndNull, line⟩
      | some ke =>
        .ok (c4, ⟨sec,
          ⟨discard_whitespace buf buf.length cur,
            ke - discard_whitespace buf buf.length cur⟩,
          ⟨discard_whitespace buf buf.length c2,
            ve - discard_whitespace buf buf.length c2⟩⟩)

/-- The outer loop of C `parse_ini`: dispatch on the byte at the
cursor, then advance the cursor by one byte unconditionally.  `\r`
increments the line counter only when not immediately followed by `\n`
(the `cursor < length - 1` bound check of the source becomes
`cursor + 1 < length`, equivalent for the `int` values involved).  On a
sub-parser error the whole parse stops and returns the state as it was
at that dispatch, paired with the error. -/
def parse_ini_loop (buf : List Char) : Nat → IniState → IniState × Option PError
  | 0, st => (st, none)
  | fuel + 1, st =>
    if st.cursor < buf.length then
      if buf.getD st.cursor ' ' = '\r' then
        if st.cursor + 1 < buf.length ∧ buf.getD (st.cursor + 1) ' ' = '\n' then
          parse_ini_loop buf fuel { st with cursor := st.cursor + 1 }
        else
          parse_ini_loop buf fuel { st with line := st.line + 1, cursor := st.cursor + 1 }
      else if buf.getD st.cursor ' ' = '\n' then
        parse_ini_loop buf fuel { st with line := st.line + 1, cursor := st.cursor + 1 }
      else if buf.getD st.cursor ' ' = ' ' ∨ buf.getD st.cursor ' ' = '\t' then
        parse_ini_loop buf fuel { st with cursor := st.cursor + 1 }
      else if buf.getD st.cursor ' ' = ';' then
        parse_ini_loop buf fuel
          { st with cursor := discard_comment buf buf.length st.cursor + 1 }
      else if buf.getD st.cursor ' ' = '[' then
        match parse_section_header buf st.cursor st.line with
        | .error e => (st, some e)
        | .ok (c', s) => parse_ini_loop buf fuel { st with cursor := c' + 1, sec := s }
      else
        match parse_kv buf st.cursor st.line st.sec with
        | .error e => (st, some e)
        | .ok (c', kv) =>
          parse_ini_loop buf fuel
            { st with cursor := c' + 1, properties := st.properties ++ [kv] }
    else (st, none)

/-- The state after the C caller zero-initialises the parser struct
and calls `init_ini`: cursor 0,
line 1, empty section slice (the zero-initialised `{nullptr, 0}`), no
properties. -/
def init_state : IniState := ⟨0, 1, ⟨0, 0⟩, []⟩

/-- C `parse_ini` run from the freshly initialised state.  Each loop
iteration advances the cursor by at least one byte, so `buf.length + 1`
fuel always runs the loop to completion. -/
def parse_ini (buf : List Char) : IniState × Option PError :=
  parse_ini_loop buf (buf.length + 1) init_state

/-- The bytes a slice denotes (what C prints via `%.*s`). -/
def sliceStr (buf : List Char) (s : Slice) : List Char :=
  (buf.drop s.start).take s.len

/-! ### Instrumented run (ghost event trace)

`parse_ini_ev` is `parse_ini_loop` with a ghost trace of the two
interesting events — a section header being captured, a record being
emitted — in the order they happen.  It is used to state the
"most recent section header" property; `parse_ini_ev_fst` proves it
computes exactly what `parse_ini_loop` computes. -/

/-- A ghost event of a parser run. -/
inductive Ev where
  | header (s : Slice)
  | record (kv : ini_kv)
deriving DecidableEq, Repr

/-- `parse_ini_loop` instrumented with the list of events of the run. -/
def parse_ini_ev (buf : List Char) : Nat → IniState → (IniState × Option PError) × List Ev
  | 0, st => ((st, none), [])
  | fuel + 1, st =>
    if st.cursor < buf.length then
      if buf.getD st.cursor ' ' = '\r' then
        if st.cursor + 1 < buf.length ∧ buf.getD (st.cursor + 1) ' ' = '\n' then
          parse_ini_ev buf fuel { st with cursor := st.cursor + 1 }
        else
          parse_ini_ev buf fuel { st with line := st.line + 1, cursor := st.cursor + 1 }
      else if buf.getD st.cursor ' ' = '\n' then
        parse_ini_ev buf fuel { st with line := st.line + 1, cursor := st.cursor + 1 }
      else if buf.getD st.cursor ' ' = ' ' ∨ buf.getD st.cursor ' ' = '\t' then
        parse_ini_ev buf fuel { st with cursor := st.cursor + 1 }
      else if buf.getD st.cursor ' ' = ';' then
        parse_ini_ev buf fuel
          { st with cursor := discard_comment buf buf.length st.cursor + 1 }
      else if buf.getD st.cursor ' ' = '[' then
        match parse_section_header buf st.cursor st.line with
        | .error e => ((st, some e), [])
        | .ok (c', s) =>
          ((parse_ini_ev buf fuel { st with cursor := c' + 1, sec := s }).1,
            .header s :: (parse_ini_ev buf fuel { st with cursor := c' + 1, sec := s }).2)
      else
        match parse_kv buf st.cursor st.line st.sec with
        | .error e => ((st, some e), [])
        | .ok (c', kv) =>
          ((parse_ini_ev buf fuel
              { st with cursor := c' + 1, properties := st.properties ++ [kv] }).1,
            .record kv :: (parse_ini_ev buf fuel
              { st with cursor := c' + 1, properties := st.properties ++ [kv] }).2)
    else ((st, none), [])

/-- The event trace of a full run of the parser. -/
def events (buf : List Char) : List Ev :=
  (parse_ini_ev buf (buf.length + 1) init_state).2

/-- The records among a list of events, in order. -/
def recsOf (evs : List Ev) : List ini_kv :=
  evs.filterMap fun e => match e with | .record kv => some kv | .header _ => none

/-- The section slice current after a list of events, starting from
`s`: the slice of the most recent `header` event, or `s` if there is
none. -/
def foldSec (s : Slice) (evs : List Ev) : Slice :=
  evs.foldl (fun a e => match e with | .header h => h | .record _ => a) s

/-! ### Spec-side definitions

These follow the wording of `spec.md` (not the C code); they are only
used on the spec side of refinement statements. -/

/-- Space or tab (the spec's "whitespace", sections 4.2.1, 4.2.4). -/
def wsB (c : Char) : Bool := c == ' ' || c == '\t'

/-- A line terminator byte. -/
def eolB (c : Char) : Bool := c == '\r' || c == '\n'

/-- Length of a list of bytes after removing its trailing run of
spaces/tabs: `rtlen l = 0` iff `l` is all whitespace; otherwise it is
one past the position of the last non-whitespace byte. -/
def rtlen : List Char → Nat
  | [] => 0
  | c :: l => if rtlen l = 0 then (if wsB c then 0 else 1) else rtlen l + 1

/-- Modelled from the spec (section 8, round-trip): a field with its
leading and trailing spaces/tabs excluded. -/
def trimWs (l : List Char) : List Char :=
  (l.dropWhile wsB).take (rtlen (l.dropWhile wsB))

/-- The bytes of the buffer from offset `a` (inclusive) to `b`
(exclusive), clipped to the buffer. -/
def region (buf : List Char) (a b : Nat) : List Char :=
  (buf.drop a).take (b - a)

/-- The value of a "tentative end" pointer (`key_end` / `value_end`)
after scanning `[a, b)` starting from `acc`: still `acc` if the scanned
bytes are all whitespace, otherwise one past the last non-whitespace
byte of the range. -/
def lastNonWs (buf : List Char) (acc : Option Nat) (a b : Nat) : Option Nat :=
  if rtlen (region buf a b) = 0 then acc else some (a + rtlen (region buf a b))

/-- The first offset `j ≥ a` with `p (buf[j]) = false`, or `buf.length`
if there is none (for `a ≤ buf.length`). -/
def stopFrom (p : Char → Bool) (buf : List Char) (a : Nat) : Nat :=
  a + ((buf.drop a).takeWhile p).length

/-- The offset of the first `\r` or `\n` at or after `a`, or
`buf.length` if there is none. -/
def firstEolFrom (buf : List Char) (a : Nat) : Nat :=
  stopFrom (fun c => ! eolB c) buf a

/-- The offset of the first `=` at or after `a`, or `buf.length` if
there is none. -/
def firstEqFrom (buf : List Char) (a : Nat) : Nat :=
  stopFrom (fun c => ! (c == '=')) buf a

/-- Modelled from the spec (sections 4.2, 8): split a buffer into
lines, a line ending at `\n`, `\r\n`, or a lone `\r`. -/
def splitLinesAux : List Char → List Char → List (List Char)
  | [], acc => [acc.reverse]
  | [c], acc =>
    if c = '\r' ∨ c = '\n' then [acc.reverse, []] else [(c :: acc).reverse]
  | c :: c2 :: rest, acc =>
    if c = '\r' then
      if c2 = '\n' then acc.reverse :: splitLinesAux rest []
      else acc.reverse :: splitLinesAux (c2 :: rest) []
    else if c = '\n' then acc.reverse :: splitLinesAux (c2 :: rest) []
    else splitLinesAux (c2 :: rest) (c :: acc)

/-- Modelled from the spec (sections 4.2.4, 8): a syntactically valid
`key = value` line — not blank, not a comment (first non-blank byte
`;`), not a section header (first non-blank byte `[`), containing an
`=` with at least one non-whitespace byte after it. -/
def isValidKVLine (l : List Char) : Bool :=
  match trimWs l with
  | [] => false
  | c :: _ =>
    if c = ';' then false
    else if c = '[' then false
    else
      match (trimWs l).dropWhile (fun ch => ! (ch == '=')) with
      | [] => false
      | _ :: value => value.any fun ch => ! wsB ch

/-- Modelled from the spec (section 8): the number of syntactically
valid `key = value` lines of a buffer. -/
def specValidKVCount (buf : List Char) : Nat :=
  ((splitLinesAux buf []).filter isValidKVLine).length

/-- Modelled from the spec (sections 4.2, 9): the number of line
terminators in a byte list, counting `\r\n` once and a lone `\r` as a
terminator. -/
def countLines : List Char → Nat
  | [] => 0
  | [c] => if c = '\r' ∨ c = '\n' then 1 else 0
  | c :: c2 :: rest =>
    if c = '\r' then (if c2 = '\n' then 0 else 1) + countLines (c2 :: rest)
    else if c = '\n' then 1 + countLines (c2 :: rest)
    else countLines (c2 :: rest)

/-- Modelled from the spec: the 1-based line number on which byte
offset `p` of the buffer lies. -/
def specLineAt (buf : List Char) (p : Nat) : Nat :=
  1 + countLines (buf.take p)

/-! ### Basic lemmas -/

lemma wsB_iff {c : Char} : wsB c = true ↔ (c = ' ' ∨ c = '\t') := by
  simp [wsB]

lemma eolB_true {c : Char} (h : c = '\r' ∨ c = '\n') : eolB c = true := by
  unfold eolB
  rcases h with rfl | rfl <;> simp

lemma eolB_false {c : Char} (h : ¬(c = '\r' ∨ c = '\n')) : eolB c = false := by
  unfold eolB
  simp only [Bool.or_eq_false_iff, beq_eq_false_iff_ne, ne_eq]
  exact ⟨fun hh => h (Or.inl hh), fun hh => h (Or.inr hh)⟩

lemma drop_cons_getD {buf : List Char} {n : Nat} (h : n < buf.length) :
    buf.drop n = buf.getD n ' ' :: buf.drop (n + 1) := by
  rw [List.getD_eq_getElem _ _ h]
  exact List.drop_eq_getElem_cons h

lemma len_takeWhile_le (p : Char → Bool) (l : List Char) :
    (l.takeWhile p).length ≤ l.length := by
  induction l with
  | nil => simp
  | cons c l ih =>
    rw [List.takeWhile_cons]
    split
    · simpa using ih
    · simp

/-! ### `stopFrom` lemmas -/

lemma stopFrom_ge (p : Char → Bool) (buf : List Char) (a : Nat) :
    a ≤ stopFrom p buf a :=
  Nat.le_add_right _ _

lemma stopFrom_le (p : Char → Bool) {buf : List Char} {a : Nat} (h : a ≤ buf.length) :
    stopFrom p buf a ≤ buf.length := by
  have h2 := len_takeWhile_le p (buf.drop a)
  rw [List.length_drop] at h2
  unfold stopFrom
  omega

lemma stopFrom_rec (p : Char → Bool) (buf : List Char) (a : Nat) :
    stopFrom p buf a =
      if a < buf.length then
        (if p (buf.getD a ' ') = true then stopFrom p buf (a + 1) else a)
      else a := by
  by_cases h : a < buf.length
  · rw [if_pos h]
    unfold stopFrom
    rw [drop_cons_getD h, List.takeWhile_cons]
    by_cases hp : p (buf.getD a ' ') = true
    · rw [if_pos hp, if_pos hp]
      simp only [List.length_cons]
      omega
    · rw [if_neg hp, if_neg hp]
      simp
  · rw [if_neg h]
    unfold stopFrom
    rw [List.drop_eq_nil_of_le (by omega)]
    simp

lemma stopFrom_sat (p : Char → Bool) (buf : List Char) :
    ∀ n a j, buf.length - a ≤ n → a ≤ j → j < stopFrom p buf a →
      p (buf.getD j ' ') = true := by
  intro n
  induction n with
  | zero =>
    intro a j hn haj hj
    rw [stopFrom_rec, if_neg (by omega)] at hj
    omega
  | succ n ih =>
    intro a j hn haj hj
    by_cases h : a < buf.length
    · rw [stopFrom_rec, if_pos h] at hj
      by_cases hp : p (buf.getD a ' ') = true
      · rw [if_pos hp] at hj
        rcases Nat.eq_or_lt_of_le haj with rfl | hlt
        · exact hp
        · exact ih (a + 1) j (by omega) hlt hj
      · rw [if_neg hp] at hj
        omega
    · rw [stopFrom_rec, if_neg h] at hj
      omega

lemma stopFrom_stop (p : Char → Bool) (buf : List Char) :
    ∀ n a, buf.length - a ≤ n → stopFrom p buf a < buf.length →
      p (buf.getD (stopFrom p buf a) ' ') = false := by
  intro n
  induction n with
  | zero =>
    intro a hn hlt
    have h : ¬ a < buf.length := by omega
    rw [stopFrom_rec, if_neg h] at hlt
    exact absurd hlt h
  | succ n ih =>
    intro a hn hlt
    by_cases h : a < buf.length
    · by_cases hp : p (buf.getD a ' ') = true
      · rw [stopFrom_rec, if_pos h, if_pos hp] at hlt ⊢
        exact ih (a + 1) (by omega) hlt
      · rw [stopFrom_rec, if_pos h, if_neg hp] at hlt ⊢
        simpa using hp
    · rw [stopFrom_rec, if_neg h] at hlt
      exact absurd hlt h

lemma stopFrom_congr (p : Char → Bool) (buf : List Char) :
    ∀ n a b, b - a ≤ n → a ≤ b → b ≤ buf.length →
      (∀ j, a ≤ j → j < b → p (buf.getD j ' ') = true) →
      stopFrom p buf a = stopFrom p buf b := by
  intro n
  induction n with
  | zero =>
    intro a b hn hab _ _
    have : a = b := by omega
    rw [this]
  | succ n ih =>
    intro a b hn hab hbl hall
    rcases Nat.eq_or_lt_of_le hab with rfl | hlt
    · rfl
    · have ha : a < buf.length := by omega
      have hp : p (buf.getD a ' ') = true := hall a le_rfl hlt
      rw [stopFrom_rec, if_pos ha, if_pos hp]
      exact ih (a + 1) b (by omega) (by omega) hbl (fun j h1 h2 => hall j (by omega) h2)

/-! ### The two discard loops compute `stopFrom` -/

lemma discard_whitespace_eq (buf : List Char) :
    ∀ fuel cur, buf.length - cur ≤ fuel →
      discard_whitespace buf fuel cur = stopFrom wsB buf cur := by
  intro fuel
  induction fuel with
  | zero =>
    intro cur h
    simp only [discard_whitespace]
    rw [stopFrom_rec wsB buf cur, if_neg (show ¬ cur < buf.length by omega)]
  | succ fuel ih =>
    intro cur h
    by_cases hc : cur < buf.length
    · by_cases hw : buf.getD cur ' ' = ' ' ∨ buf.getD cur ' ' = '\t'
      · simp only [discard_whitespace, if_pos hc, if_pos hw]
        rw [ih (cur + 1) (by omega)]
        rw [stopFrom_rec wsB buf cur, if_pos hc, if_pos (wsB_iff.mpr hw)]
      · simp only [discard_whitespace, if_pos hc, if_neg hw]
        rw [stopFrom_rec wsB buf cur, if_pos hc, if_neg (fun hh => hw (wsB_iff.mp hh))]
    · simp only [discard_whitespace, if_neg hc]
      rw [stopFrom_rec wsB buf cur, if_neg hc]

lemma discard_comment_eq (buf : List Char) :
    ∀ fuel cur, buf.length - cur ≤ fuel →
      discard_comment buf fuel cur = firstEolFrom buf cur := by
  intro fuel
  induction fuel with
  | zero =>
    intro cur h
    simp only [discard_comment, firstEolFrom]
    rw [stopFrom_rec _ buf cur, if_neg (show ¬ cur < buf.length by omega)]
  | succ fuel ih =>
    intro cur h
    simp only [firstEolFrom] at ih ⊢
    by_cases hc : cur < buf.length
    · by_cases he : buf.getD cur ' ' = '\r' ∨ buf.getD cur ' ' = '\n'
      · simp only [discard_comment, if_pos hc, if_pos he]
        rw [stopFrom_rec _ buf cur, if_pos hc,
          if_neg (show ¬ ((! eolB (buf.getD cur ' ')) = true) by rw [eolB_true he]; decide)]
      · simp only [discard_comment, if_pos hc, if_neg he]
        rw [ih (cur + 1) (by omega)]
        rw [stopFrom_rec _ buf cur, if_pos hc,
          if_pos (show (! eolB (buf.getD cur ' ')) = true by rw [eolB_false he]; rfl)]
    · simp only [discard_comment, if_neg hc]
      rw [stopFrom_rec _ buf cur, if_neg hc]

/-! ### `scanSection` characterisation -/

lemma scanSection_eq (buf : List Char) (line sb : Nat) :
    ∀ fuel cur, buf.length - cur ≤ fuel →
      scanSection buf line sb fuel cur =
        if stopFrom (fun c => ! (c == ']')) buf cur < buf.length then
          .ok (stopFrom (fun c => ! (c == ']')) buf cur,
            ⟨sb, stopFrom (fun c => ! (c == ']')) buf cur - sb⟩)
        else .error ⟨.unterminatedSection, line⟩ := by
  intro fuel
  induction fuel with
  | zero =>
    intro cur h
    have hc : ¬ cur < buf.length := by omega
    have hs : stopFrom (fun c => ! (c == ']')) buf cur = cur := by
      rw [stopFrom_rec _ buf cur, if_neg hc]
    rw [hs, if_neg hc]
    simp only [scanSection]
  | succ fuel ih =>
    intro cur h
    by_cases hc : cur < buf.length
    · by_cases hb : buf.getD cur ' ' = ']'
      · have hs : stopFrom (fun c => ! (c == ']')) buf cur = cur := by
          rw [stopFrom_rec _ buf cur, if_pos hc,
            if_neg (show ¬ ((! (buf.getD cur ' ' == ']')) = true) by rw [hb]; decide)]
        rw [hs, if_pos hc]
        simp only [scanSection, if_pos hc, if_pos hb]
      · have hs : stopFrom (fun c => ! (c == ']')) buf cur =
            stopFrom (fun c => ! (c == ']')) buf (cur + 1) := by
          rw [stopFrom_rec _ buf cur, if_pos hc,
            if_pos (show (! (buf.getD cur ' ' == ']')) = true by
              simp only [Bool.not_eq_true', beq_eq_false_iff_ne, ne_eq]; exact hb)]
        rw [hs]
        simp only [scanSection, if_pos hc, if_neg hb]
        exact ih (cur + 1) (by omega)
    · have hs : stopFrom (fun c => ! (c == ']')) buf cur = cur := by
        rw [stopFrom_rec _ buf cur, if_neg hc]
      rw [hs, if_neg hc]
      simp only [scanSection, if_neg hc]

/-! ### `region` and `rtlen` lemmas -/

lemma region_self (buf : List Char) (a : Nat) : region buf a a = [] := by
  simp [region]

lemma region_empty_of_le {buf : List Char} {a b : Nat} (h : b ≤ a) :
    region buf a b = [] := by
  unfold region
  rw [Nat.sub_eq_zero_of_le h]
  simp

lemma region_empty_of_len {buf : List Char} {a b : Nat} (h : buf.length ≤ a) :
    region buf a b = [] := by
  unfold region
  rw [List.drop_eq_nil_of_le h]
  simp

lemma region_cons {buf : List Char} {a b : Nat} (ha : a < buf.length) (hab : a < b) :
    region buf a b = buf.getD a ' ' :: region buf (a + 1) b := by
  unfold region
  rw [drop_cons_getD ha]
  have hb : b - a = (b - (a + 1)) + 1 := by omega
  rw [hb, List.take_succ_cons]

lemma region_take {buf : List Char} {a b r : Nat} (h : r ≤ b - a) :
    (region buf a b).take r = region buf a (a + r) := by
  unfold region
  rw [List.take_take, min_eq_left h, Nat.add_sub_cancel_left]

lemma sliceStr_region (buf : List Char) (a r : Nat) :
    sliceStr buf ⟨a, r⟩ = region buf a (a + r) := by
  unfold sliceStr region
  rw [Nat.add_sub_cancel_left]

lemma region_length_le {buf : List Char} (a b : Nat) :
    (region buf a b).length ≤ b - a := by
  unfold region
  rw [List.length_take]
  omega

lemma rtlen_le (l : List Char) : rtlen l ≤ l.length := by
  induction l with
  | nil => simp [rtlen]
  | cons c l ih =>
    simp only [rtlen, List.length_cons]
    split
    · split <;> omega
    · omega

lemma rtlen_zero_iff (l : List Char) : rtlen l = 0 ↔ ∀ c ∈ l, wsB c = true := by
  induction l with
  | nil => simp [rtlen]
  | cons c l ih =>
    simp only [rtlen, List.mem_cons]
    constructor
    · intro h0 x hx
      by_cases h : rtlen l = 0
      · rw [if_pos h] at h0
        rcases hx with rfl | hx
        · by_cases hw : wsB x = true
          · exact hw
          · rw [if_neg hw] at h0
            omega
        · exact (ih.mp h) x hx
      · rw [if_neg h] at h0
        omega
    · intro hall
      have h : rtlen l = 0 := ih.mpr (fun x hx => hall x (Or.inr hx))
      rw [if_pos h, if_pos (hall c (Or.inl rfl))]

lemma region_all_iff (p : Char → Bool) (buf : List Char) :
    ∀ n a b, b - a ≤ n →
      ((∀ c ∈ region buf a b, p c = true) ↔
        ∀ j, a ≤ j → j < b → j < buf.length → p (buf.getD j ' ') = true) := by
  intro n
  induction n with
  | zero =>
    intro a b hn
    constructor
    · intro _ j h1 h2 _
      omega
    · intro _ c hc
      rw [region_empty_of_le (by omega)] at hc
      simp at hc
  | succ n ih =>
    intro a b hn
    rcases le_or_lt b a with hba | hab
    · constructor
      · intro _ j h1 h2 _
        omega
      · intro _ c hc
        rw [region_empty_of_le hba] at hc
        simp at hc
    · by_cases ha : a < buf.length
      · rw [region_cons ha hab]
        simp only [List.mem_cons]
        constructor
        · intro hall j h1 h2 h3
          rcases Nat.eq_or_lt_of_le h1 with rfl | hlt
          · exact hall _ (Or.inl rfl)
          · exact ((ih (a + 1) b (by omega)).mp (fun c hc => hall c (Or.inr hc))) j hlt h2 h3
        · intro hall c hc
          rcases hc with rfl | hc
          · exact hall a le_rfl hab ha
          · exact ((ih (a + 1) b (by omega)).mpr
              (fun j h1 h2 h3 => hall j (by omega) h2 h3)) c hc
      · constructor
        · intro _ j h1 h2 h3
          omega
        · intro _ c hc
          rw [region_empty_of_len (by omega)] at hc
          simp at hc

lemma region_dropWhile_stop (p : Char → Bool) (buf : List Char) (a b : Nat)
    (hstop : a < b → a < buf.length → p (buf.getD a ' ') = false) :
    (region buf a b).dropWhile p = region buf a b := by
  rcases le_or_lt b a with hba | hab
  · rw [region_empty_of_le hba]
    simp
  · by_cases ha : a < buf.length
    · rw [region_cons ha hab, List.dropWhile_cons,
        if_neg (by rw [hstop hab ha]; decide)]
    · rw [region_empty_of_len (by omega)]
      simp

lemma region_dropWhile (p : Char → Bool) (buf : List Char) :
    ∀ n a b c, c - a ≤ n → a ≤ c → c ≤ b →
      (∀ j, a ≤ j → j < c → p (buf.getD j ' ') = true) →
      (c < b → c < buf.length → p (buf.getD c ' ') = false) →
      (region buf a b).dropWhile p = region buf c b := by
  intro n
  induction n with
  | zero =>
    intro a b c hn h1 h2 hall hstop
    have : a = c := by omega
    subst this
    exact region_dropWhile_stop p buf a b hstop
  | succ n ih =>
    intro a b c hn h1 h2 hall hstop
    rcases Nat.eq_or_lt_of_le h1 with rfl | hlt
    · exact region_dropWhile_stop p buf a b hstop
    · by_cases ha : a < buf.length
      · rw [region_cons ha (by omega), List.dropWhile_cons,
          if_pos (hall a le_rfl hlt)]
        exact ih (a + 1) b c (by omega) hlt h2 (fun j hj1 hj2 => hall j (by omega) hj2) hstop
      · rw [region_empty_of_len (by omega), region_empty_of_len (by omega)]
        simp

/-! ### `lastNonWs` step lemmas -/

lemma wsB_false {c : Char} (h : ¬(c = ' ' ∨ c = '\t')) : wsB c = false := by
  rw [← Bool.not_eq_true]
  exact fun hh => h (wsB_iff.mp hh)

lemma lastNonWs_self (buf : List Char) (acc : Option Nat) (a : Nat) :
    lastNonWs buf acc a a = acc := by
  unfold lastNonWs
  rw [region_self]
  simp [rtlen]

lemma lastNonWs_ws {buf : List Char} {a b : Nat} (acc : Option Nat)
    (hw : wsB (buf.getD a ' ') = true) (ha : a < buf.length) (hb : a < b) :
    lastNonWs buf acc a b = lastNonWs buf acc (a + 1) b := by
  unfold lastNonWs
  rw [region_cons ha hb]
  simp only [rtlen, hw]
  by_cases h0 : rtlen (region buf (a + 1) b) = 0
  · simp [h0]
  · simp [h0]
    try omega

lemma lastNonWs_nws {buf : List Char} {a b : Nat} (acc : Option Nat)
    (hw : wsB (buf.getD a ' ') = false) (ha : a < buf.length) (hb : a < b) :
    lastNonWs buf acc a b = lastNonWs buf (some (a + 1)) (a + 1) b := by
  unfold lastNonWs
  rw [region_cons ha hb]
  simp only [rtlen, hw]
  by_cases h0 : rtlen (region buf (a + 1) b) = 0
  · simp [h0]
  · simp [h0]
    try omega

/-! ### `scanValue` and `scanKey` characterisations -/

lemma scanValue_spec (buf : List Char) :
    ∀ fuel a acc, buf.length - a ≤ fuel →
      scanValue buf fuel a acc =
        ((if firstEolFrom buf a < buf.length then firstEolFrom buf a + 1
          else firstEolFrom buf a),
         lastNonWs buf acc a (firstEolFrom buf a)) := by
  intro fuel
  induction fuel with
  | zero =>
    intro a acc h
    have hc : ¬ a < buf.length := by omega
    have hf : firstEolFrom buf a = a := by
      rw [firstEolFrom, stopFrom_rec _ buf a, if_neg hc]
    simp only [scanValue]
    rw [hf, if_neg hc, lastNonWs_self]
  | succ fuel ih =>
    intro a acc h
    by_cases hc : a < buf.length
    · by_cases he : buf.getD a ' ' = '\r' ∨ buf.getD a ' ' = '\n'
      · have hf : firstEolFrom buf a = a := by
          rw [firstEolFrom, stopFrom_rec _ buf a, if_pos hc,
            if_neg (show ¬ ((! eolB (buf.getD a ' ')) = true) by rw [eolB_true he]; decide)]
        simp only [scanValue, if_pos hc, if_pos he]
        rw [hf, if_pos hc, lastNonWs_self]
      · have hf : firstEolFrom buf a = firstEolFrom buf (a + 1) := by
          rw [firstEolFrom, firstEolFrom, stopFrom_rec _ buf a, if_pos hc,
            if_pos (show (! eolB (buf.getD a ' ')) = true by rw [eolB_false he]; rfl)]
        have hgt : a < firstEolFrom buf (a + 1) := by
          have := stopFrom_ge (fun c => ! eolB c) buf (a + 1)
          rw [firstEolFrom]
          omega
        by_cases hw : buf.getD a ' ' = ' ' ∨ buf.getD a ' ' = '\t'
        · simp only [scanValue, if_pos hc, if_neg he, if_pos hw]
          rw [ih (a + 1) acc (by omega), hf,
            lastNonWs_ws acc (wsB_iff.mpr hw) hc (hf ▸ hgt)]
        · simp only [scanValue, if_pos hc, if_neg he, if_neg hw]
          rw [ih (a + 1) (some (a + 1)) (by omega), hf,
            lastNonWs_nws acc (wsB_false hw) hc (hf ▸ hgt)]
    · have hf : firstEolFrom buf a = a := by
        rw [firstEolFrom, stopFrom_rec _ buf a, if_neg hc]
      simp only [scanValue, if_neg hc]
      rw [hf, if_neg hc, lastNonWs_self]

lemma scanKey_spec (buf : List Char) (line : Nat) :
    ∀ fuel a acc c2 kend, buf.length - a ≤ fuel →
      scanKey buf line fuel a acc = .ok (c2, kend) →
      c2 = firstEqFrom buf a + 1 ∧ firstEqFrom buf a < buf.length ∧
        kend = lastNonWs buf acc a (firstEqFrom buf a) := by
  intro fuel
  induction fuel with
  | zero =>
    intro a acc c2 kend hn h
    simp only [scanKey] at h
    exact Except.noConfusion h
  | succ fuel ih =>
    intro a acc c2 kend hn h
    by_cases hc : a < buf.length
    · by_cases heq : buf.getD a ' ' = '='
      · simp only [scanKey, if_pos hc, if_pos heq, Except.ok.injEq, Prod.mk.injEq] at h
        obtain ⟨h1, h2⟩ := h
        have hfq : firstEqFrom buf a = a := by
          rw [firstEqFrom, stopFrom_rec _ buf a, if_pos hc,
            if_neg (show ¬ ((! (buf.getD a ' ' == '=')) = true) by rw [heq]; decide)]
        rw [hfq, lastNonWs_self]
        exact ⟨h1.symm, hfq ▸ hc, h2.symm⟩
      · have hfq : firstEqFrom buf a = firstEqFrom buf (a + 1) := by
          rw [firstEqFrom, firstEqFrom, stopFrom_rec _ buf a, if_pos hc,
            if_pos (show (! (buf.getD a ' ' == '=')) = true by
              simp only [Bool.not_eq_true', beq_eq_false_iff_ne, ne_eq]; exact heq)]
        have hgt : a < firstEqFrom buf (a + 1) := by
          have := stopFrom_ge (fun c => ! (c == '=')) buf (a + 1)
          rw [firstEqFrom]
          omega
        by_cases hw : buf.getD a ' ' = ' ' ∨ buf.getD a ' ' = '\t'
        · simp only [scanKey, if_pos hc, if_neg heq, if_pos hw] at h
          obtain ⟨g1, g2, g3⟩ := ih (a + 1) acc c2 kend (by omega) h
          rw [hfq, lastNonWs_ws acc (wsB_iff.mpr hw) hc (hfq ▸ hgt)]
          exact ⟨g1, g2, g3⟩
        · by_cases hel : buf.getD a ' ' = '\r' ∨ buf.getD a ' ' = '\n'
          · simp only [scanKey, if_pos hc, if_neg heq, if_neg hw, if_pos hel] at h
            exact Except.noConfusion h
          · simp only [scanKey, if_pos hc, if_neg heq, if_neg hw, if_neg hel] at h
            obtain ⟨g1, g2, g3⟩ := ih (a + 1) (some (a + 1)) c2 kend (by omega) h
            rw [hfq, lastNonWs_nws acc (wsB_false hw) hc (hfq ▸ hgt)]
            exact ⟨g1, g2, g3⟩
    · simp only [scanKey, if_neg hc] at h
      exact Except.noConfusion h

/-! ### `parse_kv` dissection -/

lemma dw_stopFrom (buf : List Char) (cur : Nat) :
    discard_whitespace buf buf.length cur = stopFrom wsB buf cur :=
  discard_whitespace_eq buf buf.length cur (Nat.sub_le _ _)

/-- For a successful `parse_kv` call: the key begins at the cursor
after the leading whitespace skip, the `=` is the first `=` from there,
the value begins after the post-`=` whitespace skip, the value scan
stops at the first `\r`/`\n` from there (or end of buffer), neither
trimmed field is empty, and the record and returned cursor are built
from those offsets. -/
lemma parse_kv_ok {buf : List Char} {cur line : Nat} {sec : Slice} {c' : Nat} {kv : ini_kv}
    (h : parse_kv buf cur line sec = .ok (c', kv)) :
    ∃ c1 fq c3 fe rk rv,
      c1 = discard_whitespace buf buf.length cur ∧
      fq = firstEqFrom buf c1 ∧ fq < buf.length ∧
      c3 = discard_whitespace buf buf.length (fq + 1) ∧
      fe = firstEolFrom buf c3 ∧
      rk = rtlen (region buf c1 fq) ∧ rk ≠ 0 ∧
      rv = rtlen (region buf c3 fe) ∧ rv ≠ 0 ∧
      c' = (if fe < buf.length then fe + 1 else fe) ∧
      kv = ⟨sec, ⟨c1, rk⟩, ⟨c3, rv⟩⟩ := by
  unfold parse_kv at h
  split at h
  · exact Except.noConfusion h
  next c2 kend heq =>
    obtain ⟨g1, g2, g3⟩ := scanKey_spec buf line buf.length
      (discard_whitespace buf buf.length cur) none c2 kend (Nat.sub_le _ _) heq
    split at h
    · exact Except.noConfusion h
    next c4 ve hveq =>
      have hsv := scanValue_spec buf buf.length
        (discard_whitespace buf buf.length c2) none (Nat.sub_le _ _)
      rw [hveq, Prod.mk.injEq] at hsv
      obtain ⟨h4, h5⟩ := hsv
      split at h
      · exact Except.noConfusion h
      next ke =>
        unfold lastNonWs at g3 h5
        by_cases hrk : rtlen (region buf (discard_whitespace buf buf.length cur)
            (firstEqFrom buf (discard_whitespace buf buf.length cur))) = 0
        · rw [if_pos hrk] at g3
          exact Option.noConfusion g3
        · rw [if_neg hrk] at g3
          by_cases hrv : rtlen (region buf (discard_whitespace buf buf.length c2)
              (firstEolFrom buf (discard_whitespace buf buf.length c2))) = 0
          · rw [if_pos hrv] at h5
            exact Option.noConfusion h5
          · rw [if_neg hrv] at h5
            rw [Except.ok.injEq, Prod.mk.injEq] at h
            obtain ⟨hc4, hkv⟩ := h
            refine ⟨discard_whitespace buf buf.length cur,
              firstEqFrom buf (discard_whitespace buf buf.length cur),
              discard_whitespace buf buf.length c2,
              firstEolFrom buf (discard_whitespace buf buf.length c2),
              rtlen (region buf (discard_whitespace buf buf.length cur)
                (firstEqFrom buf (discard_whitespace buf buf.length cur))),
              rtlen (region buf (discard_whitespace buf buf.length c2)
                (firstEolFrom buf (discard_whitespace buf buf.length c2))),
              rfl, rfl, g2, ?_, rfl, rfl, hrk, rfl, hrv, ?_, ?_⟩
            · rw [← g1]
            · rw [← hc4, h4]
            · rw [← hkv]
              have hke : ke = discard_whitespace buf buf.length cur +
                  rtlen (region buf (discard_whitespace buf buf.length cur)
                    (firstEqFrom buf (discard_whitespace buf buf.length cur))) :=
                Option.some.inj g3
              have hve : ve = discard_whitespace buf buf.length c2 +
                  rtlen (region buf (discard_whitespace buf buf.length c2)
                    (firstEolFrom buf (discard_whitespace buf buf.length c2))) :=
                Option.some.inj h5
              rw [hke, hve, Nat.add_sub_cancel_left, Nat.add_sub_cancel_left]

lemma wsB_ne_eq {c : Char} (h : wsB c = true) : (! (c == '=')) = true := by
  rcases wsB_iff.mp h with rfl | rfl <;> decide

lemma wsB_not_eol {c : Char} (h : wsB c = true) : (! eolB c) = true := by
  rcases wsB_iff.mp h with rfl | rfl <;> decide

/-- `parse_kv` copies the caller's current section into the emitted
record. -/
lemma parse_kv_sec {buf : List Char} {cur line : Nat} {sec : Slice} {c' : Nat} {kv : ini_kv}
    (h : parse_kv buf cur line sec = .ok (c', kv)) : kv.sec = sec := by
  obtain ⟨c1, fq, c3, fe, rk, rv, _, _, _, _, _, _, _, _, _, _, hkv⟩ := parse_kv_ok h
  rw [hkv]

/-- Claim C8: for every record produced by a successful `parse_kv`
call, the key slice reads exactly the text from the scan start up to
(but excluding) the first `=`, with leading and trailing spaces/tabs
excluded, and the value slice reads exactly the text after that `=` up
to (but excluding) the first line terminator (or end of buffer), with
leading and trailing spaces/tabs excluded. -/
theorem claim_C8 (buf : List Char) (cur line : Nat) (sec : Slice) (c' : Nat) (kv : ini_kv)
    (h : parse_kv buf cur line sec = .ok (c', kv)) :
    sliceStr buf kv.key = trimWs (region buf cur (firstEqFrom buf cur)) ∧
    sliceStr buf kv.value =
      trimWs (region buf (firstEqFrom buf cur + 1)
        (firstEolFrom buf (firstEqFrom buf cur + 1))) := by
  obtain ⟨c1, fq, c3, fe, rk, rv, h1, h2, h3, h4, h5, h6, h7, h8, h9, h10, h11⟩ :=
    parse_kv_ok h
  have hc1 : c1 = stopFrom wsB buf cur := by rw [h1, dw_stopFrom]
  have hcur_c1 : cur ≤ c1 := by rw [hc1]; exact stopFrom_ge wsB buf cur
  have hc1_fq : c1 ≤ fq := by rw [h2]; exact stopFrom_ge _ buf c1
  have hc1_len : c1 ≤ buf.length := by omega
  have hws1 : ∀ j, cur ≤ j → j < c1 → wsB (buf.getD j ' ') = true := by
    intro j hj1 hj2
    rw [hc1] at hj2
    exact stopFrom_sat wsB buf buf.length cur j (Nat.sub_le _ _) hj1 hj2
  have hstop1 : c1 < buf.length → wsB (buf.getD c1 ' ') = false := by
    intro hlt
    rw [hc1] at hlt ⊢
    exact stopFrom_stop wsB buf buf.length cur (Nat.sub_le _ _) hlt
  have hfqcur : firstEqFrom buf cur = fq := by
    rw [h2]
    unfold firstEqFrom
    exact stopFrom_congr _ buf c1 cur c1 (Nat.sub_le _ _) hcur_c1 hc1_len
      (fun j hj1 hj2 => wsB_ne_eq (hws1 j hj1 hj2))
  have hc3 : c3 = stopFrom wsB buf (fq + 1) := by rw [h4, dw_stopFrom]
  have hfq1_c3 : fq + 1 ≤ c3 := by rw [hc3]; exact stopFrom_ge wsB buf (fq + 1)
  have hfq1_len : fq + 1 ≤ buf.length := h3
  have hc3_len : c3 ≤ buf.length := by rw [hc3]; exact stopFrom_le wsB hfq1_len
  have hc3_fe : c3 ≤ fe := by rw [h5]; exact stopFrom_ge _ buf c3
  have hws2 : ∀ j, fq + 1 ≤ j → j < c3 → wsB (buf.getD j ' ') = true := by
    intro j hj1 hj2
    rw [hc3] at hj2
    exact stopFrom_sat wsB buf buf.length (fq + 1) j (Nat.sub_le _ _) hj1 hj2
  have hstop2 : c3 < buf.length → wsB (buf.getD c3 ' ') = false := by
    intro hlt
    rw [hc3] at hlt ⊢
    exact stopFrom_stop wsB buf buf.length (fq + 1) (Nat.sub_le _ _) hlt
  have hfecur : firstEolFrom buf (fq + 1) = fe := by
    rw [h5]
    unfold firstEolFrom
    exact stopFrom_congr _ buf c3 (fq + 1) c3 (Nat.sub_le _ _) hfq1_c3 hc3_len
      (fun j hj1 hj2 => wsB_not_eol (hws2 j hj1 hj2))
  constructor
  · rw [h11]
    show sliceStr buf ⟨c1, rk⟩ = _
    rw [sliceStr_region, hfqcur]
    unfold trimWs
    have hdw : (region buf cur fq).dropWhile wsB = region buf c1 fq :=
      region_dropWhile wsB buf c1 cur fq c1 (Nat.sub_le _ _) hcur_c1 hc1_fq hws1
        (fun _ hlt => hstop1 hlt)
    rw [hdw, ← h6, region_take (by rw [h6]; exact le_trans (rtlen_le _) (region_length_le _ _))]
  · rw [h11]
    show sliceStr buf ⟨c3, rv⟩ = _
    rw [sliceStr_region, hfqcur, hfecur]
    unfold trimWs
    have hdw2 : (region buf (fq + 1) fe).dropWhile wsB = region buf c3 fe :=
      region_dropWhile wsB buf c3 (fq + 1) fe c3 (Nat.sub_le _ _) hfq1_c3 hc3_fe hws2
        (fun _ hlt => hstop2 hlt)
    rw [hdw2, ← h8, region_take (by rw [h8]; exact le_trans (rtlen_le _) (region_length_le _ _))]

/-- Witness for C8 at the spec's example `  name = value  `: the
produced key slice reads `name` and the value slice reads `value`. -/
theorem claim_C8_witness :
    sliceStr "  name = value  ".toList
        (⟨⟨0, 0⟩, ⟨2, 4⟩, ⟨9, 5⟩⟩ : ini_kv).key = "name".toList ∧
    sliceStr "  name = value  ".toList
        (⟨⟨0, 0⟩, ⟨2, 4⟩, ⟨9, 5⟩⟩ : ini_kv).value = "value".toList := by
  have h := claim_C8 "  name = value  ".toList 0 1 ⟨0, 0⟩ 16 ⟨⟨0, 0⟩, ⟨2, 4⟩, ⟨9, 5⟩⟩
    (by decide)
  exact ⟨h.1.trans (by decide), h.2.trans (by decide)⟩

/-- Unfolding of `parse_kv` once the key scan's result is known. -/
lemma parse_kv_eq_of (buf : List Char) (cur line : Nat) (sec : Slice) {c2 : Nat}
    {kend : Option Nat}
    (hk : scanKey buf line buf.length (discard_whitespace buf buf.length cur) none =
      .ok (c2, kend)) :
    parse_kv buf cur line sec =
      match scanValue buf buf.length (discard_whitespace buf buf.length c2) none with
      | (_, none) => .error ⟨.missingValue, line⟩
      | (c4, some ve) =>
        match kend with
        | none => .error ⟨.assertKeyEndNull, line⟩
        | some ke =>
          .ok (c4, ⟨sec,
            ⟨discard_whitespace buf buf.length cur,
              ke - discard_whitespace buf buf.length cur⟩,
            ⟨discard_whitespace buf buf.length c2,
              ve - discard_whitespace buf buf.length c2⟩⟩) := by
  unfold parse_kv
  split
  next e heq =>
    rw [heq] at hk
    exact Except.noConfusion hk
  next c2x kendx heq =>
    rw [heq] at hk
    rw [Except.ok.injEq, Prod.mk.injEq] at hk
    obtain ⟨h1, h2⟩ := hk
    rw [h1, h2]
    rcases scanValue buf buf.length (discard_whitespace buf buf.length c2) none with
      ⟨c4, _ | ve⟩
    · rfl
    · cases kend <;> rfl

lemma rtlen_region_zero_iff (buf : List Char) (a b : Nat) :
    rtlen (region buf a b) = 0 ↔
      ∀ j, a ≤ j → j < b → j < buf.length → wsB (buf.getD j ' ') = true := by
  rw [rtlen_zero_iff]
  exact region_all_iff wsB buf b a b (Nat.sub_le _ _)

/-- Claim C7: after the `=` of a key/value line, if every byte before
the first line terminator (or end of buffer) is a space or tab, the
parse fails with MissingValue reporting the current line; and whenever
some non-whitespace byte occurs there, the value scan does produce a
value slice (a non-null `value_end`).  The spec's example `key =   \n`
fails with MissingValue at line 1. -/
theorem claim_C7 :
    (∀ buf cur line sec c2 kend,
      scanKey buf line buf.length (discard_whitespace buf buf.length cur) none =
          .ok (c2, kend) →
      (((∀ j, j < firstEolFrom buf c2 → c2 ≤ j → wsB (buf.getD j ' ') = true) →
          parse_kv buf cur line sec = .error ⟨.missingValue, line⟩) ∧
        ((¬ ∀ j, j < firstEolFrom buf c2 → c2 ≤ j → wsB (buf.getD j ' ') = true) →
          (scanValue buf buf.length (discard_whitespace buf buf.length c2) none).2.isSome
            = true))) ∧
    parse_ini "key =   \n".toList = (⟨0, 1, ⟨0, 0⟩, []⟩, some ⟨.missingValue, 1⟩) := by
  constructor
  · intro buf cur line sec c2 kend hk
    obtain ⟨g1, g2, g3⟩ := scanKey_spec buf line buf.length
      (discard_whitespace buf buf.length cur) none c2 kend (Nat.sub_le _ _) hk
    have hc2len : c2 ≤ buf.length := by omega
    have hc3 : discard_whitespace buf buf.length c2 = stopFrom wsB buf c2 :=
      dw_stopFrom buf c2
    have hc2c3 : c2 ≤ discard_whitespace buf buf.length c2 := by
      rw [hc3]; exact stopFrom_ge wsB buf c2
    have hc3len : discard_whitespace buf buf.length c2 ≤ buf.length := by
      rw [hc3]; exact stopFrom_le wsB hc2len
    have hws : ∀ j, c2 ≤ j → j < discard_whitespace buf buf.length c2 →
        wsB (buf.getD j ' ') = true := by
      intro j hj1 hj2
      rw [hc3] at hj2
      exact stopFrom_sat wsB buf buf.length c2 j (Nat.sub_le _ _) hj1 hj2
    have hfe : firstEolFrom buf c2 =
        firstEolFrom buf (discard_whitespace buf buf.length c2) := by
      unfold firstEolFrom
      exact stopFrom_congr _ buf (discard_whitespace buf buf.length c2) c2
        (discard_whitespace buf buf.length c2) (Nat.sub_le _ _) hc2c3 hc3len
        (fun j hj1 hj2 => wsB_not_eol (hws j hj1 hj2))
    have hfe2len : firstEolFrom buf c2 ≤ buf.length := by
      unfold firstEolFrom
      exact stopFrom_le _ hc2len
    have hc3fe : discard_whitespace buf buf.length c2 ≤
        firstEolFrom buf (discard_whitespace buf buf.length c2) := by
      unfold firstEolFrom
      exact stopFrom_ge _ buf _
    have hiff : rtlen (region buf (discard_whitespace buf buf.length c2)
        (firstEolFrom buf (discard_whitespace buf buf.length c2))) = 0 ↔
        (∀ j, j < firstEolFrom buf c2 → c2 ≤ j → wsB (buf.getD j ' ') = true) := by
      rw [rtlen_region_zero_iff]
      constructor
      · intro hall j hj1 hj2
        rcases Nat.lt_or_ge j (discard_whitespace buf buf.length c2) with hlt | hge
        · exact hws j hj2 hlt
        · exact hall j hge (by rw [← hfe]; exact hj1) (by omega)
      · intro hall j hj1 hj2 hj3
        exact hall j (by rw [hfe]; exact hj2) (by omega)
    have hsv := scanValue_spec buf buf.length
      (discard_whitespace buf buf.length c2) none (Nat.sub_le _ _)
    constructor
    · intro hall
      rw [parse_kv_eq_of buf cur line sec hk, hsv]
      rw [show lastNonWs buf none (discard_whitespace buf buf.length c2)
          (firstEolFrom buf (discard_whitespace buf buf.length c2)) = none from by
        unfold lastNonWs
        rw [if_pos (hiff.mpr hall)]]
    · intro hall
      rw [hsv]
      show (lastNonWs buf none (discard_whitespace buf buf.length c2)
        (firstEolFrom buf (discard_whitespace buf buf.length c2))).isSome = true
      unfold lastNonWs
      rw [if_neg (fun h0 => hall (hiff.mp h0))]
      rfl
  · decide

/-- Witness for C7 at the spec's example: `key =   \n` fails with
MissingValue at line 1. -/
theorem claim_C7_witness :
    parse_kv "key =   \n".toList 0 1 ⟨0, 0⟩ = .error ⟨.missingValue, 1⟩ :=
  (claim_C7.1 "key =   \n".toList 0 1 ⟨0, 0⟩ 5 (some 3) (by decide)).1 (by decide)

/-! ### `parse_section_header` characterisation -/

lemma psh_found (buf : List Char) (cur line j0 : Nat) (hlen : j0 < buf.length)
    (hge : cur + 1 ≤ j0) (hj0 : buf.getD j0 ' ' = ']')
    (hmin : ∀ j, j < j0 → cur + 1 ≤ j → buf.getD j ' ' ≠ ']') :
    parse_section_header buf cur line = .ok (j0, ⟨cur + 1, j0 - (cur + 1)⟩) := by
  have hs : stopFrom (fun c => ! (c == ']')) buf (cur + 1) = j0 := by
    have hle : stopFrom (fun c => ! (c == ']')) buf (cur + 1) ≤ j0 := by
      by_contra hgt
      have := stopFrom_sat (fun c => ! (c == ']')) buf buf.length (cur + 1) j0
        (Nat.sub_le _ _) hge (by omega)
      rw [hj0] at this
      exact absurd this (by decide)
    have hge2 : j0 ≤ stopFrom (fun c => ! (c == ']')) buf (cur + 1) := by
      by_contra hgt
      have hlt : stopFrom (fun c => ! (c == ']')) buf (cur + 1) < buf.length := by omega
      have hfalse := stopFrom_stop (fun c => ! (c == ']')) buf buf.length (cur + 1)
        (Nat.sub_le _ _) hlt
      have hrb : buf.getD (stopFrom (fun c => ! (c == ']')) buf (cur + 1)) ' ' = ']' := by
        simpa using hfalse
      exact hmin _ (by omega) (stopFrom_ge _ buf (cur + 1)) hrb
    omega
  unfold parse_section_header
  rw [scanSection_eq buf line (cur + 1) buf.length (cur + 1) (Nat.sub_le _ _), hs,
    if_pos hlen]

lemma psh_not_found (buf : List Char) (cur line : Nat)
    (hno : ∀ j, j < buf.length → cur + 1 ≤ j → buf.getD j ' ' ≠ ']') :
    parse_section_header buf cur line = .error ⟨.unterminatedSection, line⟩ := by
  have hs : ¬ stopFrom (fun c => ! (c == ']')) buf (cur + 1) < buf.length := by
    intro hlt
    have hfalse := stopFrom_stop (fun c => ! (c == ']')) buf buf.length (cur + 1)
      (Nat.sub_le _ _) hlt
    have hrb : buf.getD (stopFrom (fun c => ! (c == ']')) buf (cur + 1)) ' ' = ']' := by
      simpa using hfalse
    exact hno _ hlt (stopFrom_ge _ buf (cur + 1)) hrb
  unfold parse_section_header
  rw [scanSection_eq buf line (cur + 1) buf.length (cur + 1) (Nat.sub_le _ _), if_neg hs]

/-- Claim C10: inside a section header, `\r` and `\n` bytes neither
terminate the header nor touch the line counter: the scan runs to the
first `]` anywhere after the `[` (so the captured slice may contain
newline bytes, as for `[a\nb]`), and the header fails — with the line
counter unchanged — exactly when no `]` occurs before end of buffer. -/
theorem claim_C10 :
    (∀ buf cur line j0, j0 < buf.length → cur + 1 ≤ j0 → buf.getD j0 ' ' = ']' →
      (∀ j, j < j0 → cur + 1 ≤ j → buf.getD j ' ' ≠ ']') →
      parse_section_header buf cur line = .ok (j0, ⟨cur + 1, j0 - (cur + 1)⟩)) ∧
    (∀ buf cur line, (∀ j, j < buf.length → cur + 1 ≤ j → buf.getD j ' ' ≠ ']') →
      parse_section_header buf cur line = .error ⟨.unterminatedSection, line⟩) ∧
    parse_section_header "[a\nb]x".toList 0 1 = .ok (4, ⟨1, 3⟩) ∧
    sliceStr "[a\nb]x".toList ⟨1, 3⟩ = "a\nb".toList ∧
    '\n' ∈ sliceStr "[a\nb]x".toList ⟨1, 3⟩ :=
  ⟨fun buf cur line j0 h1 h2 h3 h4 => psh_found buf cur line j0 h1 h2 h3 h4,
    fun buf cur line h => psh_not_found buf cur line h,
    by decide, by decide, by decide⟩

/-- Witness for C10: on `[a]` the header parse stops on the `]` at
offset 2 and captures the slice `(1, 1)`. -/
theorem claim_C10_witness :
    parse_section_header "[a]".toList 0 1 = .ok (2, ⟨1, 1⟩) :=
  claim_C10.1 "[a]".toList 0 1 2 (by decide) (by decide) (by decide) (by decide)

/-- Claim C6 (code bug): dispatching `[` with no `]` before end of
buffer makes the whole parse stop with UnterminatedSection reporting
the parser's line counter as it was when the header began.  On the
spec's example `[incomplete\nkey=value` that counter is the true line
number 1; but on `k=v\n\n[x` the code reports line 1 while the header
really begins on line 3 (the key/value line consumed its `\n` and the
outer loop skipped the following byte, so neither newline was ever
counted). -/
theorem claim_C6 :
    (∀ buf fuel st, st.cursor < buf.length → buf.getD st.cursor ' ' = '[' →
      (∀ j, j < buf.length → st.cursor + 1 ≤ j → buf.getD j ' ' ≠ ']') →
      parse_ini_loop buf (fuel + 1) st = (st, some ⟨.unterminatedSection, st.line⟩)) ∧
    parse_ini "[incomplete\nkey=value".toList =
      (⟨0, 1, ⟨0, 0⟩, []⟩, some ⟨.unterminatedSection, 1⟩) ∧
    specLineAt "[incomplete\nkey=value".toList 0 = 1 ∧
    parse_ini "k=v\n\n[x".toList =
      (⟨5, 1, ⟨0, 0⟩, [⟨⟨0, 0⟩, ⟨0, 1⟩, ⟨2, 1⟩⟩]⟩, some ⟨.unterminatedSection, 1⟩) ∧
    specLineAt "k=v\n\n[x".toList 5 = 3 := by
  refine ⟨?_, by decide, by decide, by decide, by decide⟩
  intro buf fuel st hcur hch hno
  have h1 : ¬ buf.getD st.cursor ' ' = '\r' := by rw [hch]; decide
  have h2 : ¬ buf.getD st.cursor ' ' = '\n' := by rw [hch]; decide
  have h3 : ¬ (buf.getD st.cursor ' ' = ' ' ∨ buf.getD st.cursor ' ' = '\t') := by
    rw [hch]; decide
  have h4 : ¬ buf.getD st.cursor ' ' = ';' := by rw [hch]; decide
  simp only [parse_ini_loop, if_pos hcur, if_neg h1, if_neg h2, if_neg h3, if_neg h4,
    if_pos hch]
  rw [psh_not_found buf st.cursor st.line hno]

/-- Witness for C6: `[a` fails immediately with UnterminatedSection at
line 1. -/
theorem claim_C6_witness :
    parse_ini_loop "[a".toList 3 init_state =
      (init_state, some ⟨.unterminatedSection, 1⟩) :=
  claim_C6.1 "[a".toList 2 init_state (by decide) (by decide) (by decide)

/-- Claim C9: when a key/value line's value scan is stopped by a `\r`
or `\n` byte (rather than end of buffer), `parse_kv` returns with the
cursor one byte past that terminator, so the outer loop's unconditional
advance continues two bytes past the terminator — the byte right after
it is never dispatched — and the continuation state's line counter is
unchanged, so that terminator is never counted. -/
theorem claim_C9 (buf : List Char) (fuel : Nat) (st : IniState) (c' : Nat) (kv : ini_kv)
    (hcur : st.cursor < buf.length)
    (h1 : ¬ buf.getD st.cursor ' ' = '\r')
    (h2 : ¬ buf.getD st.cursor ' ' = '\n')
    (h3 : ¬ (buf.getD st.cursor ' ' = ' ' ∨ buf.getD st.cursor ' ' = '\t'))
    (h4 : ¬ buf.getD st.cursor ' ' = ';')
    (h5 : ¬ buf.getD st.cursor ' ' = '[')
    (hkv : parse_kv buf st.cursor st.line st.sec = .ok (c', kv))
    (hterm : firstEolFrom buf (discard_whitespace buf buf.length
        (firstEqFrom buf (discard_whitespace buf buf.length st.cursor) + 1)) < buf.length) :
    c' = firstEolFrom buf (discard_whitespace buf buf.length
        (firstEqFrom buf (discard_whitespace buf buf.length st.cursor) + 1)) + 1 ∧
    eolB (buf.getD (firstEolFrom buf (discard_whitespace buf buf.length
        (firstEqFrom buf (discard_whitespace buf buf.length st.cursor) + 1))) ' ') = true ∧
    parse_ini_loop buf (fuel + 1) st =
      parse_ini_loop buf fuel
        { st with cursor := c' + 1, properties := st.properties ++ [kv] } ∧
    ({ st with cursor := c' + 1, properties := st.properties ++ [kv] } : IniState).line
      = st.line := by
  obtain ⟨c1, fq, c3, fe, rk, rv, g1, g2, g3, g4, g5, g6, g7, g8, g9, g10, g11⟩ :=
    parse_kv_ok hkv
  have hE : firstEolFrom buf (discard_whitespace buf buf.length
      (firstEqFrom buf (discard_whitespace buf buf.length st.cursor) + 1)) = fe := by
    rw [← g1, ← g2, ← g4, ← g5]
  rw [hE] at hterm ⊢
  refine ⟨?_, ?_, ?_, rfl⟩
  · rw [g10, if_pos hterm]
  · rw [firstEolFrom] at g5
    have hterm2 : stopFrom (fun c => ! eolB c) buf c3 < buf.length := by
      rw [← g5]
      exact hterm
    have hfalse := stopFrom_stop (fun c => ! eolB c) buf buf.length c3
      (Nat.sub_le _ _) hterm2
    rw [← g5] at hfalse
    simpa using hfalse
  · simp only [parse_ini_loop, if_pos hcur, if_neg h1, if_neg h2, if_neg h3, if_neg h4,
      if_neg h5]
    rw [hkv]

/-- Witness for C9 on `k=v\nZ`: the first key/value line's terminator
is the `\n` at offset 3; `parse_kv` returns cursor 4 and the outer
loop continues at cursor 5, skipping the `Z`. -/
theorem claim_C9_witness :
    parse_ini_loop "k=v\nZ".toList 1 init_state =
      parse_ini_loop "k=v\nZ".toList 0
        { init_state with
          cursor := 5
          properties := [⟨⟨0, 0⟩, ⟨0, 1⟩, ⟨2, 1⟩⟩] } :=
  (claim_C9 "k=v\nZ".toList 0 init_state 4 ⟨⟨0, 0⟩, ⟨0, 1⟩, ⟨2, 1⟩⟩ (by decide) (by decide)
    (by decide) (by decide) (by decide) (by decide) (by decide) (by decide)).2.2.1

/-- Claim C1 (code bug): on the spec's first scenario the parse
succeeds with two records, but the second record's key slice reads
`ort`, not `port`: `parse_kv` consumed the newline after `localhost`,
so the outer loop's unconditional advance skipped the `p` — the
sub-routine does **not** leave the cursor so that the `+1` lands on the
first unconsumed byte. -/
theorem claim_C1 :
    parse_ini "[server]\nhost = localhost\nport = 8080\n".toList =
      (⟨39, 2, ⟨1, 6⟩,
        [⟨⟨1, 6⟩, ⟨9, 4⟩, ⟨16, 9⟩⟩, ⟨⟨1, 6⟩, ⟨27, 3⟩, ⟨33, 4⟩⟩]⟩, none) ∧
    sliceStr "[server]\nhost = localhost\nport = 8080\n".toList ⟨1, 6⟩ =
      "server".toList ∧
    sliceStr "[server]\nhost = localhost\nport = 8080\n".toList ⟨9, 4⟩ =
      "host".toList ∧
    sliceStr "[server]\nhost = localhost\nport = 8080\n".toList ⟨16, 9⟩ =
      "localhost".toList ∧
    sliceStr "[server]\nhost = localhost\nport = 8080\n".toList ⟨27, 3⟩ =
      "ort".toList ∧
    "ort".toList ≠ "port".toList := by
  decide

/-- Claim C2 (code bug): on `a=b\n;c=d\n` the parse succeeds with two
records although the input has only one syntactically valid
`key = value` line — the `;` of the comment line is skipped raw by the
outer loop's advance after the first key/value line, so the comment
line is parsed as a second key/value line. -/
theorem claim_C2 :
    parse_ini "a=b\n;c=d\n".toList =
      (⟨10, 1, ⟨0, 0⟩,
        [⟨⟨0, 0⟩, ⟨0, 1⟩, ⟨2, 1⟩⟩, ⟨⟨0, 0⟩, ⟨5, 1⟩, ⟨7, 1⟩⟩]⟩, none) ∧
    (parse_ini "a=b\n;c=d\n".toList).1.properties.length = 2 ∧
    specValidKVCount "a=b\n;c=d\n".toList = 1 := by
  decide

/-- Claim C3 (code bug): on the empty-key line `=value` the key scan
never sets `key_end`, so `parse_kv` does not succeed with a zero-length
key slice — it reaches `assert(key_end)` with a null pointer and
aborts (modelled as the `assertKeyEndNull` outcome). -/
theorem claim_C3 :
    parse_ini "=value".toList = (⟨0, 1, ⟨0, 0⟩, []⟩, some ⟨.assertKeyEndNull, 1⟩) ∧
    parse_kv "=value".toList 0 1 ⟨0, 0⟩ = .error ⟨.assertKeyEndNull, 1⟩ := by
  decide

/-- Claim C4, amended: the parse halts at the first error, but records
emitted before the error are never removed — the properties of the
final state (successful or failed) always extend the starting
properties. -/
theorem claim_C4 (buf : List Char) :
    ∀ fuel st, ∃ tail,
      (parse_ini_loop buf fuel st).1.properties = st.properties ++ tail := by
  intro fuel
  induction fuel with
  | zero =>
    intro st
    exact ⟨[], by simp [parse_ini_loop]⟩
  | succ fuel ih =>
    intro st
    by_cases hc : st.cursor < buf.length
    · simp only [parse_ini_loop, if_pos hc]
      by_cases h1 : buf.getD st.cursor ' ' = '\r'
      · rw [if_pos h1]
        by_cases hp : st.cursor + 1 < buf.length ∧ buf.getD (st.cursor + 1) ' ' = '\n'
        · rw [if_pos hp]
          exact ih _
        · rw [if_neg hp]
          exact ih _
      · rw [if_neg h1]
        by_cases h2 : buf.getD st.cursor ' ' = '\n'
        · rw [if_pos h2]
          exact ih _
        · rw [if_neg h2]
          by_cases h3 : buf.getD st.cursor ' ' = ' ' ∨ buf.getD st.cursor ' ' = '\t'
          · rw [if_pos h3]
            exact ih _
          · rw [if_neg h3]
            by_cases h4 : buf.getD st.cursor ' ' = ';'
            · rw [if_pos h4]
              exact ih _
            · rw [if_neg h4]
              by_cases h5 : buf.getD st.cursor ' ' = '['
              · rw [if_pos h5]
                cases hsec : parse_section_header buf st.cursor st.line with
                | error e => exact ⟨[], by simp⟩
                | ok p =>
                  obtain ⟨c2, s⟩ := p
                  exact ih _
              · rw [if_neg h5]
                cases hkv : parse_kv buf st.cursor st.line st.sec with
                | error e => exact ⟨[], by simp⟩
                | ok p =>
                  obtain ⟨c2, kv⟩ := p
                  obtain ⟨tail, htail⟩ :=
                    ih { st with cursor := c2 + 1, properties := st.properties ++ [kv] }
                  exact ⟨kv :: tail, by rw [htail]; simp⟩
    · simp only [parse_ini_loop, if_neg hc]
      exact ⟨[], by simp⟩

/-- Counterexample for C4 as stated: on `a=b\n\n[x` the parse fails
with UnterminatedSection, yet the caller-visible properties of the
failed parse contain the record from the line parsed before the error
— they are not empty. -/
theorem claim_C4_counterexample :
    (parse_ini "a=b\n\n[x".toList).2 = some ⟨.unterminatedSection, 1⟩ ∧
    (parse_ini "a=b\n\n[x".toList).1.properties = [⟨⟨0, 0⟩, ⟨0, 1⟩, ⟨2, 1⟩⟩] ∧
    (parse_ini "a=b\n\n[x".toList).1.properties ≠ [] := by
  decide

/-! ### Event-trace lemmas for the section-persistence claim -/

lemma recsOf_cons_header (s : Slice) (l : List Ev) :
    recsOf (Ev.header s :: l) = recsOf l := rfl

lemma recsOf_cons_record (kv : ini_kv) (l : List Ev) :
    recsOf (Ev.record kv :: l) = kv :: recsOf l := rfl

lemma foldSec_cons_header (s0 hs : Slice) (l : List Ev) :
    foldSec s0 (Ev.header hs :: l) = foldSec hs l := rfl

lemma foldSec_cons_record (s0 : Slice) (kv : ini_kv) (l : List Ev) :
    foldSec s0 (Ev.record kv :: l) = foldSec s0 l := rfl

lemma foldSec_no_header :
    ∀ (pre : List Ev) (s : Slice), (∀ hs, Ev.header hs ∉ pre) → foldSec s pre = s := by
  intro pre
  induction pre with
  | nil =>
    intro s _
    rfl
  | cons e l ih =>
    intro s hno
    cases e with
    | header hs => exact absurd (List.mem_cons_self _ _) (hno hs)
    | record kv0 =>
      rw [foldSec_cons_record]
      exact ih s (fun hs hmem => hno hs (List.mem_cons_of_mem _ hmem))

/-- The instrumented run computes exactly what `parse_ini_loop`
computes. -/
lemma parse_ini_ev_fst (buf : List Char) :
    ∀ fuel st, (parse_ini_ev buf fuel st).1 = parse_ini_loop buf fuel st := by
  intro fuel
  induction fuel with
  | zero =>
    intro st
    rfl
  | succ fuel ih =>
    intro st
    simp only [parse_ini_ev, parse_ini_loop]
    split_ifs with hc h1 hp h2 h3 h4 h5
    · exact ih _
    · exact ih _
    · exact ih _
    · exact ih _
    · exact ih _
    · cases parse_section_header buf st.cursor st.line with
      | error e => rfl
      | ok p =>
        obtain ⟨c2, s⟩ := p
        exact ih _
    · cases parse_kv buf st.cursor st.line st.sec with
      | error e => rfl
      | ok p =>
        obtain ⟨c2, kv⟩ := p
        exact ih _
    · rfl

/-- The records of the instrumented run's event list are exactly the
records appended to the starting properties. -/
lemma parse_ini_ev_props (buf : List Char) :
    ∀ fuel st, ((parse_ini_ev buf fuel st).1.1).properties =
      st.properties ++ recsOf (parse_ini_ev buf fuel st).2 := by
  intro fuel
  induction fuel with
  | zero =>
    intro st
    simp [parse_ini_ev, recsOf]
  | succ fuel ih =>
    intro st
    simp only [parse_ini_ev]
    split_ifs with hc h1 hp h2 h3 h4 h5
    · exact ih _
    · exact ih _
    · exact ih _
    · exact ih _
    · exact ih _
    · cases parse_section_header buf st.cursor st.line with
      | error e => simp [recsOf]
      | ok p =>
        obtain ⟨c2, s⟩ := p
        show ((parse_ini_ev buf fuel { st with cursor := c2 + 1, sec := s }).1.1).properties =
          st.properties ++ recsOf (Ev.header s ::
            (parse_ini_ev buf fuel { st with cursor := c2 + 1, sec := s }).2)
        rw [recsOf_cons_header]
        exact ih _
    · cases parse_kv buf st.cursor st.line st.sec with
      | error e => simp [recsOf]
      | ok p =>
        obtain ⟨c2, kv⟩ := p
        show ((parse_ini_ev buf fuel
            { st with cursor := c2 + 1, properties := st.properties ++ [kv] }).1.1).properties =
          st.properties ++ recsOf (Ev.record kv :: (parse_ini_ev buf fuel
            { st with cursor := c2 + 1, properties := st.properties ++ [kv] }).2)
        rw [recsOf_cons_record, ih _]
        simp
    · simp [recsOf]

/-- Every record event of an instrumented run carries the section that
results from folding the events before it over the starting section:
the slice of the most recent preceding header event, or the starting
section if there is none. -/
lemma parse_ini_ev_sec (buf : List Char) (kv : ini_kv) (post : List Ev) :
    ∀ fuel st pre, (parse_ini_ev buf fuel st).2 = pre ++ Ev.record kv :: post →
      kv.sec = foldSec st.sec pre := by
  intro fuel
  induction fuel with
  | zero =>
    intro st pre h
    simp only [parse_ini_ev] at h
    cases pre <;> simp at h
  | succ fuel ih =>
    intro st pre h
    simp only [parse_ini_ev] at h
    by_cases hc : st.cursor < buf.length
    · rw [if_pos hc] at h
      by_cases h1 : buf.getD st.cursor ' ' = '\r'
      · rw [if_pos h1] at h
        by_cases hp : st.cursor + 1 < buf.length ∧ buf.getD (st.cursor + 1) ' ' = '\n'
        · rw [if_pos hp] at h
          exact ih { st with cursor := st.cursor + 1 } pre h
        · rw [if_neg hp] at h
          exact ih { st with line := st.line + 1, cursor := st.cursor + 1 } pre h
      · rw [if_neg h1] at h
        by_cases h2 : buf.getD st.cursor ' ' = '\n'
        · rw [if_pos h2] at h
          exact ih { st with line := st.line + 1, cursor := st.cursor + 1 } pre h
        · rw [if_neg h2] at h
          by_cases h3 : buf.getD st.cursor ' ' = ' ' ∨ buf.getD st.cursor ' ' = '\t'
          · rw [if_pos h3] at h
            exact ih { st with cursor := st.cursor + 1 } pre h
          · rw [if_neg h3] at h
            by_cases h4 : buf.getD st.cursor ' ' = ';'
            · rw [if_pos h4] at h
              exact ih { st with cursor := discard_comment buf buf.length st.cursor + 1 } pre h
            · rw [if_neg h4] at h
              by_cases h5 : buf.getD st.cursor ' ' = '['
              · rw [if_pos h5] at h
                cases hsec : parse_section_header buf st.cursor st.line with
                | error e =>
                  rw [hsec] at h
                  have h' : ([] : List Ev) = pre ++ Ev.record kv :: post := h
                  cases pre <;> simp at h'
                | ok p =>
                  obtain ⟨c2, s⟩ := p
                  rw [hsec] at h
                  have h' : Ev.header s ::
                      (parse_ini_ev buf fuel { st with cursor := c2 + 1, sec := s }).2 =
                      pre ++ Ev.record kv :: post := h
                  cases pre with
                  | nil => simp at h'
                  | cons e pre' =>
                    rw [List.cons_append] at h'
                    injection h' with he htail
                    rw [← he, foldSec_cons_header]
                    exact ih _ pre' htail
              · rw [if_neg h5] at h
                cases hkv : parse_kv buf st.cursor st.line st.sec with
                | error e =>
                  rw [hkv] at h
                  have h' : ([] : List Ev) = pre ++ Ev.record kv :: post := h
                  cases pre <;> simp at h'
                | ok p =>
                  obtain ⟨c2, kv0⟩ := p
                  rw [hkv] at h
                  have h' : Ev.record kv0 :: (parse_ini_ev buf fuel
                      { st with cursor := c2 + 1, properties := st.properties ++ [kv0] }).2 =
                      pre ++ Ev.record kv :: post := h
                  cases pre with
                  | nil =>
                    rw [List.nil_append] at h'
                    injection h' with he htail
                    have hkveq : kv0 = kv := by injection he
                    show kv.sec = st.sec
                    rw [← hkveq]
                    exact parse_kv_sec hkv
                  | cons e pre' =>
                    rw [List.cons_append] at h'
                    injection h' with he htail
                    rw [← he, foldSec_cons_record]
                    exact ih
                      { st with cursor := c2 + 1, properties := st.properties ++ [kv0] }
                      pre' htail
    · rw [if_neg hc] at h
      cases pre <;> simp at h

/-- Claim C5: every emitted record's section slice is the one captured
by the most recent section header parsed before it (folding the event
trace), records emitted before any header carry the empty
zero-initialised section slice `(0, 0)`, and the parser's final
properties are exactly the record events of the run in order. -/
theorem claim_C5 (buf : List Char) (pre : List Ev) (kv : ini_kv) (post : List Ev)
    (h : events buf = pre ++ Ev.record kv :: post) :
    kv.sec = foldSec ⟨0, 0⟩ pre ∧
    ((∀ s, Ev.header s ∉ pre) → kv.sec = ⟨0, 0⟩) ∧
    (parse_ini buf).1.properties = recsOf (events buf) := by
  have h1 : kv.sec = foldSec init_state.sec pre :=
    parse_ini_ev_sec buf kv post (buf.length + 1) init_state pre h
  refine ⟨h1, ?_, ?_⟩
  · intro hno
    rw [h1]
    exact foldSec_no_header pre _ (fun hs => hno hs)
  · have hp := parse_ini_ev_props buf (buf.length + 1) init_state
    have hf := parse_ini_ev_fst buf (buf.length + 1) init_state
    unfold parse_ini events
    rw [← hf, hp]
    simp [init_state]

/-- Witness for C5 on `[db]\na=b\n`: the single record's section slice
is the one captured by the `[db]` header event before it. -/
theorem claim_C5_witness :
    (⟨⟨1, 2⟩, ⟨5, 1⟩, ⟨7, 1⟩⟩ : ini_kv).sec = foldSec ⟨0, 0⟩ [Ev.header ⟨1, 2⟩] :=
  (claim_C5 "[db]\na=b\n".toList [Ev.header ⟨1, 2⟩] ⟨⟨1, 2⟩, ⟨5, 1⟩, ⟨7, 1⟩⟩ []
    (by decide)).1

end IniParser
